import Mathlib

set_option maxHeartbeats 1000000

/-!
Verification development for the yass subdomain enumerator
(`yass/models/plugin.py`).  The file shallowly embeds the plugin core:

* `clean` — `PluginBase.clean`, which matches every raw text against the
  regular expression `(.+://)?(?P<subdomain>(.*)domain)[/\?].*` (the target
  domain is interpolated verbatim) and collects the non-empty `subdomain`
  groups;
* `PluginBase.url` — `PluginBase.url`, the search query builder;
* `runLoop` / `PluginBase.run` — the polling loop of `PluginBase.run`,
  with the external fetch-and-select collaborator modelled as a function
  from the request index to either a failure or the list of extracted
  fragment texts, and the unbounded `while True` loop given explicit fuel;
* `resolve_meta` — the definition-time option resolution done by
  `PluginMeta.__new__`.

The regular-expression semantics is embedded for the exact pattern shape the
source compiles: an optional greedy scheme group `(.+://)?`, a greedy
`(.*)` followed by the interpolated domain, one `/` or `?`, and a trailing
`.*`.  The interpolated domain is tokenised by `domainPattern`, which treats
`.` as the any-character wildcard and every other character as a literal;
this is faithful for domains made of alphanumerics, dots and hyphens (the
realistic inputs), which is why theorems about arbitrary domains carry a
`domainTame` hypothesis.  Python's backtracking order is preserved: scheme
splits are tried longest first, then the scheme-less alternative, and inside
a candidate the `(.*)` is greedy, so the longest subdomain group wins.
-/

/-- One token of the interpolated domain part of the pattern: a literal
character, or the `.` wildcard (any character except a newline). -/
inductive Tok where
  | lit : Char → Tok
  | any : Tok
deriving DecidableEq

/-- Does a single pattern token match a single character? -/
def tokMatch : Tok → Char → Bool
  | Tok.lit a, c => a == c
  | Tok.any, c => c != '\n'

/-- The token list obtained by interpolating the target domain into the
regular expression: `.` becomes the wildcard, everything else a literal. -/
def domainPattern (domain : String) : List Tok :=
  domain.data.map (fun c => if c = '.' then Tok.any else Tok.lit c)

/-- Match a fixed-length token pattern at the front of the text; on success
return the matched characters and the rest of the text. -/
def patSplit : List Tok → List Char → Option (List Char × List Char)
  | [], s => some ([], s)
  | _ :: _, [] => none
  | t :: ts, c :: cs =>
    if tokMatch t c then (patSplit ts cs).map (fun pr => (c :: pr.1, pr.2))
    else none

/-- Does the token pattern match the whole given character list? -/
def patMatch : List Tok → List Char → Bool
  | [], [] => true
  | t :: ts, c :: cs => tokMatch t c && patMatch ts cs
  | _, _ => false

/-- Try `(.*){domain}[/\?]` with the `(.*)` part empty: the domain pattern
must match at the front of `r` and be followed by `/` or `?`.  Returns the
`subdomain` group on success. -/
def hsAux : Option (List Char × List Char) → Option (List Char)
  | some (m, x :: _) => if x = '/' ∨ x = '?' then some m else none
  | _ => none

def headSep (p : List Tok) (r : List Char) : Option (List Char) :=
  hsAux (patSplit p r)

/-- Match `(?P<subdomain>(.*){domain})[/\?].*` at the front of `r`,
returning the `subdomain` group.  The `(.*)` is greedy and cannot cross a
newline, so the longest viable gap is preferred, exactly as in the Python
backtracking search. -/
def smStep (p : List Tok) (c : Char) (cs : List Char) : Option (List Char) → Option (List Char)
  | some v => some (c :: v)
  | none => headSep p (c :: cs)

def subMatch (p : List Tok) : List Char → Option (List Char)
  | [] => none
  | c :: cs =>
    if c = '\n' then headSep p (c :: cs)
    else smStep p c cs (subMatch p cs)

/-- All ways to read a leading `(.+://)` scheme group off the text, returning
the remainders after `://`, longest scheme first (the order the greedy Python
engine tries them).  The scheme characters may not include a newline. -/
def schemeRemainders : List Char → List (List Char)
  | [] => []
  | c :: cs =>
    if c = '\n' then []
    else
      schemeRemainders cs ++
        (if cs.take 3 = [':', '/', '/'] then [cs.drop 3] else [])

/-- First hit of `f` over the candidate list, in order. -/
def orHead : Option (List Char) → Option (List Char) → Option (List Char)
  | some v, _ => some v
  | none, y => y

def firstSome (f : List Char → Option (List Char)) : List (List Char) → Option (List Char)
  | [] => none
  | x :: xs => orHead (f x) (firstSome f xs)

/-- Run the whole anchored pattern `(.+://)?(?P<subdomain>(.*){domain})[/\?].*`
against the text: scheme-present splits are tried longest first, then the
scheme-less reading, matching Python's backtracking order for a greedy
optional group. -/
def urlMatch (p : List Tok) (s : List Char) : Option (List Char) :=
  firstSome (subMatch p) (schemeRemainders s ++ [s])

/-- One raw text through `PluginBase.clean`: the regex match, keeping the
`subdomain` group only when it is a non-empty string (the source checks
`match and match.group('subdomain')`). -/
def keepNonEmpty : Option (List Char) → Option String
  | some m => if m.isEmpty then none else some (String.mk m)
  | none => none

def cleanOne (domain : String) (url : String) : Option String :=
  keepNonEmpty (urlMatch (domainPattern domain) url.data)

/-- `PluginBase.clean`: keep, in input order, the non-empty `subdomain`
groups of the raw texts that match the compiled expression.  Duplicates are
not removed here. -/
def clean (domain : String) (urls : List String) : List String :=
  urls.filterMap (cleanOne domain)

/-- Worker for `without_duplicates`: keep the elements not yet seen, in
order, remembering the seen ones. -/
def wdAux : List String → List String → List String
  | _, [] => []
  | seen, x :: xs => if x ∈ seen then wdAux seen xs else x :: wdAux (x :: seen) xs

/-- Modelled from the spec: `helpers.without_duplicates` is imported by the
plugin module but its file is not under src.  The spec describes it as
deduplication that preserves first-seen order. -/
def without_duplicates (l : List String) : List String :=
  wdAux [] l

/-- The static options a runnable strategy needs, with the source's attribute
names (`_meta.search_url` and friends in `plugin.py`). -/
structure MetaOptions where
  search_url : String
  query_param : String
  include_param : String
  exclude_param : String
  subdomains_selector : String
  request_delay : Nat
  abstract : Bool

/-- A strategy instance: the resolved options, the target domain and the
caller-supplied preset exclusions (`exclude_subdomains`, default none,
modelled as the empty list since Python maps both `None` and `[]` to `[]`
via `or []`). -/
structure PluginBase where
  meta : MetaOptions
  domain : String
  exclude_subdomains : List String

/-- Python's `sep.join(parts)`. -/
def strJoin (sep : String) : List String → String
  | [] => ""
  | [x] => x
  | x :: y :: xs => x ++ sep ++ strJoin sep (y :: xs)

/-- Plain concatenation of a list of strings (used to state the exact shape
of the built URL). -/
def concatAll : List String → String
  | [] => ""
  | x :: xs => x ++ concatAll xs

/-- The deduplicated exclusion list the URL builder works with
(line 143 of `plugin.py`): the exclusions passed by the loop followed by the
preset exclusions, first-seen duplicates removed. -/
def PluginBase.excluded (P : PluginBase) (exclude_subdomains : List String) : List String :=
  without_duplicates (exclude_subdomains ++ P.exclude_subdomains)

/-- `PluginBase.url`: the base query
`search_url?query_param=include_param+domain`, plus one `+exclude_param d`
term per (deduplicated) excluded subdomain, joined by `+`. -/
def PluginBase.url (P : PluginBase) (exclude_subdomains : List String) : String :=
  if (P.excluded exclude_subdomains).isEmpty then
    P.meta.search_url ++ "?" ++ P.meta.query_param ++ "=" ++
      P.meta.include_param ++ P.domain
  else
    P.meta.search_url ++ "?" ++ P.meta.query_param ++ "=" ++
      P.meta.include_param ++ P.domain ++ "+" ++
      strJoin "+" ((P.excluded exclude_subdomains).map (fun d => P.meta.exclude_param ++ d))

/-- The fragments of a collaborator answer; a failed fetch yields no
fragments. -/
def okFrags : Except Unit (List String) → List String
  | Except.ok f => f
  | Except.error _ => []

/-- The merge step of one loop iteration (lines 187 and 195-196 of
`plugin.py`): append the cleaned subdomains, drop duplicates keeping
first-seen order, and remove the bare target domain if it slipped in. -/
def mergeStep (P : PluginBase) (acc subs : List String) : List String :=
  if P.domain ∈ without_duplicates (acc ++ subs) then
    (without_duplicates (acc ++ subs)).erase P.domain
  else without_duplicates (acc ++ subs)

/-- The `while True` loop of `PluginBase.run`.  `collab i` is the external
fetch-and-select collaborator for the `i`-th request (0-based): either a
failure (any exception of the fetch/parse step) or the extracted fragment
texts.  The loop builds a URL from the accumulated results, fetches, cleans,
and stops on a fetch failure or when no subdomain was cleaned from the page;
the source loop is unbounded, so it is given explicit fuel, and every claim
holds for all sufficient fuel.  Returns the list of URLs built (one per
request issued, in order) together with the final accumulated list. -/
def runLoop (P : PluginBase) (collab : Nat → Except Unit (List String)) :
    Nat → Nat → List String → List String × List String
  | 0, _, acc => ([], acc)
  | fuel + 1, idx, acc =>
    let u := P.url acc
    match collab idx with
    | Except.error _ => ([u], acc)
    | Except.ok frags =>
      let subs := clean P.domain frags
      if subs.isEmpty then ([u], acc)
      else
        let acc2 := mergeStep P acc subs
        let r := runLoop P collab fuel (idx + 1) acc2
        (u :: r.1, r.2)

/-- `PluginBase.run`: run the loop from an empty accumulator and return the
collected subdomains.  It catches every collaborator failure, so it is a
total function of the collaborator. -/
def PluginBase.run (P : PluginBase) (collab : Nat → Except Unit (List String))
    (fuel : Nat) : List String :=
  (runLoop P collab fuel 0 []).2

/-- The property of the `i`-th request that keeps the loop going: the fetch
succeeded and at least one subdomain was cleaned from the page. -/
def goodCall (P : PluginBase) (collab : Nat → Except Unit (List String)) (i : Nat) : Prop :=
  (collab i).isOk = true ∧ clean P.domain (okFrags (collab i)) ≠ []

instance (P : PluginBase) (collab : Nat → Except Unit (List String)) (i : Nat) :
    Decidable (goodCall P collab i) :=
  inferInstanceAs (Decidable (And _ _))

/-- Reference shape of the accumulator: the cleaned results of the processed
pages, concatenated, deduplicated keeping first-seen order, with every
occurrence of the bare target domain removed. -/
def accOf (P : PluginBase) (subsLists : List (List String)) : List String :=
  (without_duplicates subsLists.flatten).filter (fun y => y != P.domain)

/-- Concrete options used by the closed instances below. -/
def metaW : MetaOptions := ⟨"https://s", "q", "", "-", "a", 0, false⟩

/-- A concrete plugin targeting the domain `d.io` with no preset
exclusions. -/
def pluginW : PluginBase := ⟨metaW, "d.io", []⟩

/-- A collaborator whose fetches always succeed with zero fragments. -/
def collabEmpty : Nat → Except Unit (List String) := fun _ => Except.ok []

/-- A collaborator whose first call yields one fragment and whose second
call fails. -/
def collabErr1 : Nat → Except Unit (List String) := fun i =>
  if i = 0 then Except.ok ["x.d.io/"] else Except.error ()

/-- A collaborator whose first call yields zero fragments, whose second
call yields one fragment, and whose third call fails. -/
def collabErr2 : Nat → Except Unit (List String) := fun i =>
  if i = 0 then Except.ok []
  else if i = 1 then Except.ok ["x.d.io/"]
  else Except.error ()

/-- The plugin of the C6 scenario: domain `site.io`, preset exclusion
`old.site.io`. -/
def pluginSite : PluginBase :=
  ⟨⟨"https://search.example", "q", "site:", "-site:", "a", 1, false⟩,
    "site.io", ["old.site.io"]⟩

/-- A plugin whose target domain is the empty string (for the input
validation claim). -/
def pluginEmptyDomain : PluginBase := ⟨metaW, "", []⟩

/-- A collaborator that always fails. -/
def collabFail : Nat → Except Unit (List String) := fun _ => Except.error ()

/-- Newline-free character list (what the `.` segments of the pattern may
consume). -/
def NLFree (l : List Char) : Prop := ∀ c, c ∈ l → c ≠ '\n'

/-- Declarative reading of a successful subdomain-group match: the text
splits as `gap ++ body ++ sep :: rest` with a newline-free gap, the domain
pattern matching `body`, and `sep` one of `/` `?`; the group value is
`gap ++ body` (so it may itself contain `/` or `?` characters, inside the
gap). -/
def SubSpec (p : List Tok) (r m : List Char) : Prop :=
  ∃ a b c rest, r = a ++ b ++ c :: rest ∧ m = a ++ b ∧ NLFree a ∧
    patMatch p b = true ∧ (c = '/' ∨ c = '?')

/-- Declarative reading of the optional scheme group: either nothing is
stripped, or a non-empty newline-free scheme followed by `://`. -/
def SchemeStrip (s r : List Char) : Prop :=
  r = s ∨ ∃ h, s = h ++ ':' :: '/' :: '/' :: r ∧ ¬ h = [] ∧ NLFree h

/-- Acceptance of a raw text by the compiled pattern, declaratively. -/
def UrlAccept (p : List Tok) (s : List Char) : Prop :=
  ∃ r m, SchemeStrip s r ∧ SubSpec p r m

/-- Declarative description of a returned group value: some scheme strip
and some gap-body split of the remainder produce it. -/
def UrlValue (p : List Tok) (s v : List Char) : Prop :=
  ∃ r, SchemeStrip s r ∧ SubSpec p r v

/-- The domains the embedding is faithful for: non-empty and made of
alphanumerics, dots and hyphens; the dot is the regex wildcard, everything
else matches literally. -/
def domainTame (d : String) : Prop :=
  ¬ d = "" ∧ ∀ c, c ∈ d.data → (c.isAlphanum = true ∨ c = '.' ∨ c = '-')

instance (d : String) : Decidable (domainTame d) := by
  unfold domainTame
  infer_instance

/-- The claim's scheme stripping, read literally: drop everything through
the first `://` preceded by a non-empty scheme name; return `none` when the
text has no such prefix.  First argument accumulates the scanned prefix. -/
def firstSchemeTail : List Char → List Char → Option (List Char)
  | pre, ':' :: '/' :: '/' :: rest =>
    if pre.isEmpty then firstSchemeTail [':'] ('/' :: '/' :: rest) else some rest
  | pre, c :: cs => firstSchemeTail (c :: pre) cs
  | _, [] => none

/-- The characters up to (excluding) the first `/` or `?`. -/
def upToSep : List Char → List Char
  | [] => []
  | c :: cs => if c = '/' ∨ c = '?' then [] else c :: upToSep cs

/-- The host the claim says `clean` accepts: strip an optional leading
scheme, then take the prefix up to the first `/` or `?`. -/
def claimHost (t : String) : String :=
  String.mk (upToSep ((firstSchemeTail [] t.data).getD t.data))

/-- The acceptance condition asserted by the claim: that host is non-empty
and literally ends with the domain. -/
def claimAccepts (d t : String) : Bool :=
  !(claimHost t).isEmpty && d.data.isSuffixOf (claimHost t).data

example : clean "example.com" ["http://sub.example.com/page?x=1"] = ["sub.example.com"] := by decide

example : clean "example.com" ["no-match-here"] = [] := by decide

example : clean "a.com" ["xaXcom/"] = ["xaXcom"] := by decide

example : clean "example.com" ["foo/a.example.com/x"] = ["foo/a.example.com"] := by decide

example :
    PluginBase.url ⟨⟨"https://search.example", "q", "site:", "-site:", "a", 1, false⟩, "site.io", ["old.site.io"]⟩ [] =
      "https://search.example?q=site:site.io+-site:old.site.io" := by decide

example :
    without_duplicates ["a", "b", "a", "c", "b"] = ["a", "b", "c"] := by decide

/-- A declared `Meta` block as the metaclass sees it: each option either
declared or absent (`hasattr` on the declared meta is what decides
inheritance in `PluginMeta.__new__`). -/
structure DeclaredMeta where
  search_url : Option String
  query_param : Option String
  include_param : Option String
  exclude_param : Option String
  subdomains_selector : Option String
  request_delay : Option Nat
  abstract : Option Bool

/-- The `_meta` object attached to a plugin class: options possibly absent,
except the abstract flag, which always exists. -/
structure ResolvedMeta where
  search_url : Option String
  query_param : Option String
  include_param : Option String
  exclude_param : Option String
  subdomains_selector : Option String
  request_delay : Option Nat
  abstract : Bool

/-- Modelled from the spec: `models.options.Options` is imported by the
plugin module but its file is not under src.  Per the spec's StrategyConfig,
`Options(meta)` carries over the declared attributes and the abstract flag
(`isAbstract`) defaults to false. -/
def optionsOf (m : DeclaredMeta) : ResolvedMeta :=
  ⟨m.search_url, m.query_param, m.include_param, m.exclude_param,
    m.subdomains_selector, m.request_delay, m.abstract.getD false⟩

/-- Declared value if present, else the base's (the
`if not hasattr(meta, attr): copy` loop, per attribute). -/
def pick {α : Type} (d b : Option α) : Option α :=
  match d with
  | some v => some v
  | none => b

/-- The resolution step of `PluginMeta.__new__` (lines 54-60 of
`plugin.py`): the new class gets `Options(meta)`; when the nearest ancestor
`_meta` exists and is not abstract, every attribute absent from the declared
meta is copied from it; nothing is copied when the nearest ancestor `_meta`
is abstract. -/
def resolve_meta (declared : DeclaredMeta) (base : Option ResolvedMeta) : ResolvedMeta :=
  match base with
  | none => optionsOf declared
  | some b =>
    if b.abstract then optionsOf declared
    else
      ⟨pick declared.search_url b.search_url,
        pick declared.query_param b.query_param,
        pick declared.include_param b.include_param,
        pick declared.exclude_param b.exclude_param,
        pick declared.subdomains_selector b.subdomains_selector,
        pick declared.request_delay b.request_delay,
        declared.abstract.getD b.abstract⟩

/-- Resolve a chain of plugin class definitions, root first: each class's
`_meta` is resolved against the previous class's `_meta`, once, at
definition time. -/
def resolveChain (ds : List DeclaredMeta) : Option ResolvedMeta :=
  ds.foldl (fun b d => some (resolve_meta d b)) none

/-- A non-abstract root strategy declaring a search endpoint. -/
def dRoot : DeclaredMeta := ⟨some "https://a", none, none, none, none, none, none⟩

/-- An abstract intermediate strategy declaring nothing else. -/
def dAbstract : DeclaredMeta := ⟨none, none, none, none, none, none, some true⟩

/-- A concrete leaf strategy declaring nothing. -/
def dLeaf : DeclaredMeta := ⟨none, none, none, none, none, none, none⟩

theorem filter_comm2 (l : List String) (p q : String → Bool) :
    (l.filter p).filter q = (l.filter q).filter p := by
  rw [List.filter_filter, List.filter_filter]
  exact List.filter_congr fun a _ => Bool.and_comm _ _

theorem filter_idem2 (l : List String) (p : String → Bool) :
    (l.filter p).filter p = l.filter p := by
  rw [List.filter_filter]
  exact List.filter_congr fun a _ => Bool.and_self _

theorem filter_bne_of_not_mem {l : List String} {x : String} (h : ¬ x ∈ l) :
    l.filter (fun y => y != x) = l := by
  refine List.filter_eq_self.mpr ?_
  intro a ha
  simp only [bne_iff_ne, ne_eq]
  intro he
  exact h (he ▸ ha)

theorem mem_wdAux (a : String) (l : List String) :
    ∀ seen, a ∈ wdAux seen l ↔ a ∈ l ∧ ¬ a ∈ seen := by
  induction l with
  | nil => intro seen; simp [wdAux]
  | cons x xs ih =>
    intro seen
    by_cases hx : x ∈ seen
    · rw [wdAux, if_pos hx, ih seen]
      by_cases hax : a = x
      · subst hax; simp [hx]
      · simp [hax]
    · rw [wdAux, if_neg hx]
      by_cases hax : a = x
      · subst hax; simp [hx]
      · simp only [List.mem_cons, ih (x :: seen), List.mem_cons]
        simp [hax]

theorem nodup_wdAux (l : List String) : ∀ seen, (wdAux seen l).Nodup := by
  induction l with
  | nil => intro seen; exact List.nodup_nil
  | cons x xs ih =>
    intro seen
    by_cases hx : x ∈ seen
    · rw [wdAux, if_pos hx]; exact ih seen
    · rw [wdAux, if_neg hx]
      refine List.nodup_cons.mpr ⟨?_, ih (x :: seen)⟩
      intro hc
      exact ((mem_wdAux x xs (x :: seen)).mp hc).2 (List.mem_cons_self x seen)

theorem wdAux_congr (l : List String) :
    ∀ s1 s2, (∀ a, a ∈ s1 ↔ a ∈ s2) → wdAux s1 l = wdAux s2 l := by
  induction l with
  | nil => intro s1 s2 _; rfl
  | cons x xs ih =>
    intro s1 s2 h
    by_cases hx : x ∈ s1
    · rw [wdAux, if_pos hx, wdAux, if_pos ((h x).mp hx)]
      exact ih s1 s2 h
    · rw [wdAux, if_neg hx, wdAux, if_neg (fun hc => hx ((h x).mpr hc))]
      refine congrArg (x :: ·) (ih _ _ ?_)
      intro a
      simp [h a]

theorem wdAux_cons_seen (x : String) (l : List String) :
    ∀ seen, wdAux (x :: seen) l = (wdAux seen l).filter (fun y => y != x) := by
  induction l with
  | nil => intro seen; rfl
  | cons y ys ih =>
    intro seen
    by_cases hy : y ∈ seen
    · rw [wdAux, if_pos (List.mem_cons_of_mem x hy), wdAux, if_pos hy, ih seen]
    · by_cases hyx : y = x
      · subst hyx
        rw [wdAux, if_pos (List.mem_cons_self y seen), wdAux, if_neg hy, ih seen,
          List.filter_cons]
        have hq : (y != y) = false := by simp
        rw [hq]
        simp only [Bool.false_eq_true, if_false, filter_idem2]
      · have hxy : ¬ y ∈ x :: seen := by
          intro hc
          rcases List.mem_cons.mp hc with h | h
          · exact hyx h
          · exact hy h
        rw [wdAux, if_neg hxy, wdAux, if_neg hy]
        have hswap : wdAux (y :: x :: seen) ys = wdAux (x :: y :: seen) ys := by
          refine wdAux_congr ys _ _ ?_
          intro a
          constructor
          · intro h
            rcases List.mem_cons.mp h with h | h
            · exact List.mem_cons_of_mem _ (h ▸ List.mem_cons_self y seen)
            · rcases List.mem_cons.mp h with h | h
              · exact h ▸ List.mem_cons_self x (y :: seen)
              · exact List.mem_cons_of_mem _ (List.mem_cons_of_mem _ h)
          · intro h
            rcases List.mem_cons.mp h with h | h
            · exact List.mem_cons_of_mem _ (h ▸ List.mem_cons_self x seen)
            · rcases List.mem_cons.mp h with h | h
              · exact h ▸ List.mem_cons_self y (x :: seen)
              · exact List.mem_cons_of_mem _ (List.mem_cons_of_mem _ h)
        rw [hswap, ih (y :: seen), List.filter_cons]
        have hq : (y != x) = true := by simp [hyx]
        rw [hq]
        simp only [if_true]

theorem wd_nil : without_duplicates [] = [] := rfl

theorem wd_cons (x : String) (xs : List String) :
    without_duplicates (x :: xs) =
      x :: (without_duplicates xs).filter (fun y => y != x) := by
  show wdAux [] (x :: xs) = _
  rw [wdAux, if_neg (List.not_mem_nil x), wdAux_cons_seen x xs []]
  rfl

theorem mem_wd (a : String) (l : List String) :
    a ∈ without_duplicates l ↔ a ∈ l := by
  rw [without_duplicates, mem_wdAux a l []]
  simp

theorem nodup_wd (l : List String) : (without_duplicates l).Nodup :=
  nodup_wdAux l []

theorem wd_filter_aux (p : String → Bool) :
    ∀ (n : Nat) (l : List String), l.length ≤ n →
      (without_duplicates l).filter p = without_duplicates (l.filter p) := by
  intro n
  induction n with
  | zero =>
    intro l hl
    rw [List.length_eq_zero.mp (Nat.le_zero.mp hl)]
    rfl
  | succ n ih =>
    intro l hl
    match l with
    | [] => rfl
    | x :: xs =>
      have hxs : xs.length ≤ n := Nat.lt_succ_iff.mp (Nat.lt_of_lt_of_le (Nat.lt_succ_self _) hl)
      rw [wd_cons, List.filter_cons, List.filter_cons]
      by_cases hp : p x = true
      · rw [hp]
        simp only [if_true]
        rw [wd_cons, filter_comm2, ih xs hxs]
      · have hp2 : p x = false := Bool.eq_false_iff.mpr hp
        rw [hp2]
        simp only [Bool.false_eq_true, if_false]
        rw [filter_comm2, ih xs hxs]
        refine filter_bne_of_not_mem ?_
        intro hc
        have := List.of_mem_filter ((mem_wd x (xs.filter p)).mp hc)
        rw [hp2] at this
        exact Bool.false_ne_true this

theorem wd_filter (p : String → Bool) (l : List String) :
    (without_duplicates l).filter p = without_duplicates (l.filter p) :=
  wd_filter_aux p l.length l (Nat.le_refl _)

theorem wd_append_left_aux :
    ∀ (n : Nat) (xs : List String), xs.length ≤ n → ∀ ys,
      without_duplicates (without_duplicates xs ++ ys) = without_duplicates (xs ++ ys) := by
  intro n
  induction n with
  | zero =>
    intro xs hl ys
    cases xs with
    | nil => rfl
    | cons x xs => simp at hl
  | succ n ih =>
    intro xs hl ys
    cases xs with
    | nil => rfl
    | cons x xs =>
      have hxs : xs.length ≤ n := by
        simp only [List.length_cons] at hl
        omega
      have hfl : (xs.filter (fun y => y != x)).length ≤ n :=
        Nat.le_trans (List.length_filter_le _ _) hxs
      rw [wd_cons x xs, List.cons_append, List.cons_append, wd_cons, wd_cons,
        wd_filter, List.filter_append, filter_idem2, wd_filter (fun y => y != x) xs,
        ih _ hfl, ← List.filter_append, ← wd_filter]

theorem wd_append_left (xs ys : List String) :
    without_duplicates (without_duplicates xs ++ ys) = without_duplicates (xs ++ ys) :=
  wd_append_left_aux xs.length xs (Nat.le_refl _) ys

theorem wd_idem (l : List String) :
    without_duplicates (without_duplicates l) = without_duplicates l := by
  have h := wd_append_left l []
  simpa using h

theorem accOf_nil (P : PluginBase) : accOf P [] = [] := rfl

theorem accOf_nodup (P : PluginBase) (l : List (List String)) : (accOf P l).Nodup :=
  (nodup_wd _).filter _

theorem accOf_domain_not_mem (P : PluginBase) (l : List (List String)) :
    ¬ P.domain ∈ accOf P l := by
  intro h
  have := List.of_mem_filter h
  simp at this

theorem mergeStep_accOf (P : PluginBase) (done : List (List String)) (subs : List String) :
    mergeStep P (accOf P done) subs = accOf P (done ++ [subs]) := by
  have hflat : (done ++ [subs]).flatten = done.flatten ++ subs := by simp
  have ha : without_duplicates (accOf P done ++ subs)
      = without_duplicates (done.flatten.filter (fun y => y != P.domain) ++ subs) := by
    unfold accOf
    rw [wd_filter, wd_append_left]
  have hfa : (without_duplicates (done.flatten.filter (fun y => y != P.domain) ++ subs)).filter
        (fun y => y != P.domain)
      = accOf P (done ++ [subs]) := by
    rw [wd_filter, List.filter_append, filter_idem2, ← List.filter_append, ← wd_filter]
    unfold accOf
    rw [hflat]
  unfold mergeStep
  rw [ha]
  by_cases hd : P.domain ∈ without_duplicates (done.flatten.filter (fun y => y != P.domain) ++ subs)
  · rw [if_pos hd, (nodup_wd _).erase_eq_filter, hfa]
  · rw [if_neg hd, ← filter_bne_of_not_mem hd, hfa]

theorem runLoop_accOf (P : PluginBase) (collab : Nat → Except Unit (List String)) :
    ∀ (fuel idx : Nat) (done : List (List String)),
      ∃ k, k ≤ fuel ∧ (∀ i, i < k → goodCall P collab (idx + i)) ∧
        (runLoop P collab fuel idx (accOf P done)).2
          = accOf P (done ++ (List.range k).map
              (fun i => clean P.domain (okFrags (collab (idx + i))))) := by
  intro fuel
  induction fuel with
  | zero =>
    intro idx done
    exact ⟨0, Nat.le_refl 0, fun i hi => absurd hi (Nat.not_lt_zero i), by simp [runLoop]⟩
  | succ fuel ih =>
    intro idx done
    cases hc : collab idx with
    | error e =>
      refine ⟨0, Nat.zero_le _, fun i hi => absurd hi (Nat.not_lt_zero i), ?_⟩
      simp [runLoop, hc]
    | ok frags =>
      by_cases hs : (clean P.domain frags).isEmpty = true
      · refine ⟨0, Nat.zero_le _, fun i hi => absurd hi (Nat.not_lt_zero i), ?_⟩
        simp [runLoop, hc, hs]
      · obtain ⟨k, hk, hgood, hres⟩ := ih (idx + 1) (done ++ [clean P.domain frags])
        refine ⟨k + 1, Nat.succ_le_succ hk, ?_, ?_⟩
        · intro i hi
          cases i with
          | zero =>
            refine ⟨?_, ?_⟩
            · rw [Nat.add_zero, hc]; rfl
            · rw [Nat.add_zero, hc]
              show clean P.domain frags ≠ []
              intro hnil
              rw [hnil] at hs
              exact hs rfl
          | succ i =>
            have hgi := hgood i (Nat.lt_of_succ_lt_succ hi)
            have harith : idx + 1 + i = idx + (i + 1) := by omega
            rw [harith] at hgi
            exact hgi
        · have hrun : (runLoop P collab (fuel + 1) idx (accOf P done)).2
              = (runLoop P collab fuel (idx + 1)
                  (accOf P (done ++ [clean P.domain frags]))).2 := by
            simp [runLoop, hc, hs, mergeStep_accOf]
          have hlist : (List.range (k + 1)).map
                (fun i => clean P.domain (okFrags (collab (idx + i))))
              = clean P.domain frags :: (List.range k).map
                  (fun i => clean P.domain (okFrags (collab (idx + 1 + i)))) := by
            rw [List.range_succ_eq_map, List.map_cons, List.map_map]
            have h0 : clean P.domain (okFrags (collab (idx + 0))) = clean P.domain frags := by
              rw [Nat.add_zero, hc]
              rfl
            have hfun : ((fun i => clean P.domain (okFrags (collab (idx + i)))) ∘ Nat.succ)
                = fun i => clean P.domain (okFrags (collab (idx + 1 + i))) := by
              funext i
              simp only [Function.comp]
              have harith : idx + (i + 1) = idx + 1 + i := by omega
              rw [Nat.succ_eq_add_one, harith]
            rw [h0, hfun]
          rw [hrun, hres, hlist]
          congr 1
          simp [List.append_assoc]

theorem runLoop_error_stop (P : PluginBase) (collab : Nat → Except Unit (List String)) :
    ∀ (n idx fuel : Nat) (done : List (List String)),
      (∀ i, i < n → goodCall P collab (idx + i)) →
      collab (idx + n) = Except.error () →
      n < fuel →
      (runLoop P collab fuel idx (accOf P done)).2
          = accOf P (done ++ (List.range n).map
              (fun i => clean P.domain (okFrags (collab (idx + i)))))
        ∧ (runLoop P collab fuel idx (accOf P done)).1.length = n + 1 := by
  intro n
  induction n with
  | zero =>
    intro idx fuel done hg herr hfuel
    obtain ⟨f, rfl⟩ : ∃ f, fuel = f + 1 := ⟨fuel - 1, by omega⟩
    rw [Nat.add_zero] at herr
    constructor
    · simp [runLoop, herr]
    · simp [runLoop, herr]
  | succ n ih =>
    intro idx fuel done hg herr hfuel
    obtain ⟨f, rfl⟩ : ∃ f, fuel = f + 1 := ⟨fuel - 1, by omega⟩
    have hgood0 := hg 0 (Nat.succ_pos n)
    rw [Nat.add_zero] at hgood0
    obtain ⟨hok, hne⟩ := hgood0
    cases hc : collab idx with
    | error e =>
      rw [hc] at hok
      simp [Except.isOk, Except.toBool] at hok
    | ok frags =>
      rw [hc] at hne
      have hne2 : ¬ (clean P.domain frags).isEmpty = true := by
        intro h
        exact hne (List.isEmpty_iff.mp h)
      have hg2 : ∀ i, i < n → goodCall P collab (idx + 1 + i) := by
        intro i hi
        have hgi := hg (i + 1) (Nat.succ_lt_succ hi)
        have harith : idx + (i + 1) = idx + 1 + i := by omega
        rw [harith] at hgi
        exact hgi
      have herr2 : collab (idx + 1 + n) = Except.error () := by
        have harith : idx + (n + 1) = idx + 1 + n := by omega
        rw [harith] at herr
        exact herr
      obtain ⟨hres, hlen⟩ := ih (idx + 1) f (done ++ [clean P.domain frags]) hg2 herr2
        (Nat.lt_of_succ_lt_succ hfuel)
      have hrun : runLoop P collab (f + 1) idx (accOf P done)
          = (P.url (accOf P done) ::
              (runLoop P collab f (idx + 1)
                (accOf P (done ++ [clean P.domain frags]))).1,
             (runLoop P collab f (idx + 1)
                (accOf P (done ++ [clean P.domain frags]))).2) := by
        simp [runLoop, hc, hne2, mergeStep_accOf]
      have hlist : (List.range (n + 1)).map
            (fun i => clean P.domain (okFrags (collab (idx + i))))
          = clean P.domain frags :: (List.range n).map
              (fun i => clean P.domain (okFrags (collab (idx + 1 + i)))) := by
        rw [List.range_succ_eq_map, List.map_cons, List.map_map]
        have h0 : clean P.domain (okFrags (collab (idx + 0))) = clean P.domain frags := by
          rw [Nat.add_zero, hc]
          rfl
        have hfun : ((fun i => clean P.domain (okFrags (collab (idx + i)))) ∘ Nat.succ)
            = fun i => clean P.domain (okFrags (collab (idx + 1 + i))) := by
          funext i
          simp only [Function.comp]
          have harith : idx + (i + 1) = idx + 1 + i := by omega
          rw [Nat.succ_eq_add_one, harith]
        rw [h0, hfun]
      constructor
      · rw [hrun]
        show (runLoop P collab f (idx + 1) (accOf P (done ++ [clean P.domain frags]))).2 = _
        rw [hres, hlist]
        congr 1
        simp [List.append_assoc]
      · rw [hrun]
        show ((P.url (accOf P done) :: (runLoop P collab f (idx + 1)
            (accOf P (done ++ [clean P.domain frags]))).1)).length = n + 1 + 1
        rw [List.length_cons, hlen]

/-- C3: at every iteration boundary — equivalently, for every fuel bound,
since `runLoop` with fuel `f` returns the accumulator reached after at most
`f` iterations — the accumulated result list equals the cleaned results of
the pages processed so far, concatenated in order, deduplicated keeping the
first occurrence of each entry, with the bare target domain filtered out; in
particular it never contains duplicates and never contains the bare target
domain. -/
theorem run_resultset_invariant (P : PluginBase) (collab : Nat → Except Unit (List String))
    (fuel : Nat) :
    ∃ k, k ≤ fuel ∧ (∀ i, i < k → goodCall P collab i) ∧
      PluginBase.run P collab fuel
        = accOf P ((List.range k).map (fun i => clean P.domain (okFrags (collab i)))) ∧
      (PluginBase.run P collab fuel).Nodup ∧
      ¬ P.domain ∈ PluginBase.run P collab fuel := by
  obtain ⟨k, hk, hg, hres⟩ := runLoop_accOf P collab fuel 0 []
  rw [accOf_nil] at hres
  have hres2 : PluginBase.run P collab fuel
      = accOf P ((List.range k).map (fun i => clean P.domain (okFrags (collab i)))) := by
    show (runLoop P collab fuel 0 []).2 = _
    rw [hres]
    simp [Nat.zero_add]
  refine ⟨k, hk, ?_, hres2, ?_, ?_⟩
  · intro i hi
    have hgi := hg i hi
    rwa [Nat.zero_add] at hgi
  · rw [hres2]; exact accOf_nodup P _
  · rw [hres2]; exact accOf_domain_not_mem P _

/-- C2 counterexample: `collabErr2` raises on its third call while its first
two calls succeed, yet `run` returns `[]` and not the deduplicated cleaned
results of the first two calls (`["x.d.io"]`): the loop had already stopped
at the first call, whose page yielded no subdomain, so the subdomains the
second call would have contributed were never accumulated. -/
theorem run_fetch_error_claim_cex :
    (collabErr2 0).isOk = true ∧ (collabErr2 1).isOk = true
      ∧ collabErr2 2 = Except.error ()
      ∧ PluginBase.run pluginW collabErr2 5 = []
      ∧ without_duplicates (clean pluginW.domain (okFrags (collabErr2 0))
            ++ clean pluginW.domain (okFrags (collabErr2 1))) = ["x.d.io"]
      ∧ ¬ ([] : List String) = ["x.d.io"] := by
  refine ⟨rfl, rfl, rfl, ?_, by decide, by decide⟩
  decide

/-- C2 amended: if each of the first `n` requests succeeds and yields at
least one cleaned subdomain, and the next request fails, then (with fuel to
spare) `run` does not propagate the failure — it is a total function by
construction — performs no retry (the failing request is issued once and
nothing is fetched after it: exactly `n + 1` requests in total), and returns
exactly the deduplicated cleaned results of those `n` requests with the bare
domain filtered out.  Without the hypothesis on the first `n` requests the
original claim fails, because the loop stops at the first page that yields
no new subdomain (see the counterexample). -/
theorem run_fetch_error_partial_results (P : PluginBase)
    (collab : Nat → Except Unit (List String)) (n fuel : Nat)
    (hgood : ∀ i, i < n → goodCall P collab i)
    (herr : collab n = Except.error ())
    (hfuel : n < fuel) :
    PluginBase.run P collab fuel
        = accOf P ((List.range n).map (fun i => clean P.domain (okFrags (collab i))))
      ∧ (runLoop P collab fuel 0 []).1.length = n + 1 := by
  have hg0 : ∀ i, i < n → goodCall P collab (0 + i) := by
    intro i hi
    rw [Nat.zero_add]
    exact hgood i hi
  have herr0 : collab (0 + n) = Except.error () := by rwa [Nat.zero_add]
  obtain ⟨hres, hlen⟩ := runLoop_error_stop P collab n 0 fuel [] hg0 herr0 hfuel
  rw [accOf_nil] at hres hlen
  constructor
  · show (runLoop P collab fuel 0 []).2 = _
    rw [hres]
    simp [Nat.zero_add]
  · exact hlen

/-- Witness for the amended C2 theorem: a collaborator that succeeds once
with one fragment and fails on its second request. -/
theorem run_fetch_error_partial_results_witness :
    PluginBase.run pluginW collabErr1 2
        = accOf pluginW ((List.range 1).map
            (fun i => clean pluginW.domain (okFrags (collabErr1 i))))
      ∧ (runLoop pluginW collabErr1 2 0 []).1.length = 1 + 1 :=
  run_fetch_error_partial_results pluginW collabErr1 1 2 (by decide) rfl (by decide)

/-- C4: with a collaborator that always succeeds with zero fragments, the
run performs exactly one iteration — one URL built, one request issued — and
returns the empty result list (which is in particular empty-or-preset-only),
for every plugin, preset exclusion set, and any fuel of at least one
iteration. -/
theorem run_zero_fragments_one_iteration (P : PluginBase)
    (collab : Nat → Except Unit (List String))
    (hz : ∀ i, collab i = Except.ok []) (fuel : Nat) :
    runLoop P collab (fuel + 1) 0 [] = ([P.url []], []) := by
  simp [runLoop, hz 0, clean]

/-- Witness for the C4 theorem: the always-empty collaborator. -/
theorem run_zero_fragments_one_iteration_witness :
    runLoop pluginW collabEmpty 1 0 [] = ([pluginW.url []], []) :=
  run_zero_fragments_one_iteration pluginW collabEmpty (fun _ => rfl) 0

/-- C6: in a run for domain `site.io` with preset exclusion `old.site.io`,
the first URL is built with nothing accumulated yet and its effective
exclusion list is exactly `["old.site.io"]`: it carries an exclude term for
`old.site.io` and no exclude term for the bare `site.io`, as the concrete
URL string shows. -/
theorem first_url_excludes_presets (collab : Nat → Except Unit (List String)) :
    (runLoop pluginSite collab 1 0 []).1 = [pluginSite.url []]
      ∧ pluginSite.excluded [] = ["old.site.io"]
      ∧ "old.site.io" ∈ pluginSite.excluded []
      ∧ ¬ "site.io" ∈ pluginSite.excluded []
      ∧ pluginSite.url []
          = "https://search.example?q=site:site.io+-site:old.site.io" := by
  refine ⟨?_, by decide, by decide, by decide, by decide⟩
  cases hc : collab 0 with
  | error e => simp [runLoop, hc]
  | ok frags =>
    by_cases hs : (clean pluginSite.domain frags).isEmpty = true
    · simp [runLoop, hc, hs]
    · simp [runLoop, hc, hs]

/-- C8 counterexample: with the empty target domain the run is not rejected
before the loop: the loop starts, a URL is built from the empty domain and
the first request is issued (the URL trace is non-empty), and no exception
is raised — the run returns a plain (here empty) list. -/
theorem run_empty_domain_cex :
    (runLoop pluginEmptyDomain collabFail 1 0 []).1 = ["https://s?q="]
      ∧ PluginBase.run pluginEmptyDomain collabFail 1 = [] := by
  exact ⟨by decide, by decide⟩

/-- C8 amended: neither `__init__` nor `run` validates the target domain.
For every options record, preset exclusions, collaborator and positive fuel,
the run with the empty domain enters the loop and builds its first URL from
the empty domain — the first request is issued instead of the run being
rejected — and no exception is raised, the run being a total function. -/
theorem run_no_domain_validation (m : MetaOptions) (ex : List String)
    (collab : Nat → Except Unit (List String)) (fuel : Nat) :
    (runLoop (PluginBase.mk m "" ex) collab (fuel + 1) 0 []).1.head?
      = some (PluginBase.url (PluginBase.mk m "" ex) []) := by
  cases hc : collab 0 with
  | error e => simp [runLoop, hc]
  | ok frags =>
    by_cases hs : (clean "" frags).isEmpty = true
    · simp [runLoop, hc, hs]
    · simp [runLoop, hc, hs]

theorem plus_join_eq_concat (t : String) (ts : List String) :
    "+" ++ strJoin "+" (t :: ts) = concatAll ((t :: ts).map (fun d => "+" ++ d)) := by
  induction ts generalizing t with
  | nil => simp [strJoin, concatAll]
  | cons t2 ts ih =>
    have h1 : strJoin "+" (t :: t2 :: ts) = t ++ "+" ++ strJoin "+" (t2 :: ts) := rfl
    have h2 : concatAll ((t :: t2 :: ts).map (fun d => "+" ++ d))
        = ("+" ++ t) ++ concatAll ((t2 :: ts).map (fun d => "+" ++ d)) := rfl
    rw [h1, h2, ← ih t2]
    simp only [← String.append_assoc]

/-- C5: the built URL is exactly the base
`search_url ? query_param = include_param domain`, followed by one term
`+ exclude_param d` for each entry `d` of the effective exclusion list in
its order; the effective list is the loop-supplied exclusions followed by
the presets, deduplicated keeping the first occurrence (it has no duplicate
and exactly the members of that concatenation); an empty effective list
yields exactly the base URL (the trailing concatenation is then empty). -/
theorem url_exact_shape (P : PluginBase) (ex : List String) :
    P.url ex
        = P.meta.search_url ++ "?" ++ P.meta.query_param ++ "=" ++
            P.meta.include_param ++ P.domain ++
            concatAll ((P.excluded ex).map (fun d => "+" ++ (P.meta.exclude_param ++ d)))
      ∧ (P.excluded ex).Nodup
      ∧ ∀ a, a ∈ P.excluded ex ↔ a ∈ ex ++ P.exclude_subdomains := by
  refine ⟨?_, nodup_wd _, fun a => mem_wd a _⟩
  unfold PluginBase.url
  cases hex : P.excluded ex with
  | nil => simp [concatAll]
  | cons t ts =>
    simp only [List.isEmpty_cons, Bool.false_eq_true, if_false, List.map_cons]
    rw [String.append_assoc, plus_join_eq_concat]
    have hcmp : ((fun d => "+" ++ d) ∘ fun d => P.meta.exclude_param ++ d)
        = fun d => "+" ++ (P.meta.exclude_param ++ d) := rfl
    simp only [List.map_cons, List.map_map, hcmp]

theorem patSplit_sound (p : List Tok) :
    ∀ (s m rest : List Char), patSplit p s = some (m, rest) →
      s = m ++ rest ∧ patMatch p m = true := by
  induction p with
  | nil =>
    intro s m rest h
    simp only [patSplit, Option.some.injEq, Prod.mk.injEq] at h
    obtain ⟨h1, h2⟩ := h
    subst h1
    subst h2
    exact ⟨rfl, rfl⟩
  | cons t ts ih =>
    intro s m rest h
    cases s with
    | nil => simp [patSplit] at h
    | cons c cs =>
      simp only [patSplit] at h
      by_cases htm : tokMatch t c = true
      · rw [if_pos htm] at h
        cases hps : patSplit ts cs with
        | none => rw [hps] at h; simp at h
        | some pr =>
          rw [hps] at h
          simp only [Option.map_some', Option.some.injEq, Prod.mk.injEq] at h
          obtain ⟨h1, h2⟩ := h
          obtain ⟨hs, hm⟩ := ih cs pr.1 pr.2 (by rw [hps])
          subst h1
          subst h2
          constructor
          · rw [List.cons_append, ← hs]
          · have hshape : patMatch (t :: ts) (c :: pr.1) = (tokMatch t c && patMatch ts pr.1) := rfl
            rw [hshape, htm, hm]
            rfl
      · rw [if_neg htm] at h
        simp at h

theorem patSplit_complete (p : List Tok) :
    ∀ (b rest : List Char), patMatch p b = true →
      patSplit p (b ++ rest) = some (b, rest) := by
  induction p with
  | nil =>
    intro b rest h
    cases b with
    | nil => rfl
    | cons c cs => exact Bool.noConfusion h
  | cons t ts ih =>
    intro b rest h
    cases b with
    | nil => exact Bool.noConfusion h
    | cons c cs =>
      have hsplit : (tokMatch t c && patMatch ts cs) = true := h
      rw [Bool.and_eq_true] at hsplit
      obtain ⟨h1, h2⟩ := hsplit
      rw [List.cons_append]
      simp [patSplit, h1, ih cs rest h2]

theorem patMatch_length (p : List Tok) :
    ∀ b, patMatch p b = true → b.length = p.length := by
  induction p with
  | nil =>
    intro b h
    cases b with
    | nil => rfl
    | cons c cs => exact Bool.noConfusion h
  | cons t ts ih =>
    intro b h
    cases b with
    | nil => exact Bool.noConfusion h
    | cons c cs =>
      have hsplit : (tokMatch t c && patMatch ts cs) = true := h
      rw [Bool.and_eq_true] at hsplit
      simp [List.length_cons, ih cs hsplit.2]

theorem headSep_sound (p : List Tok) (r m : List Char) (h : headSep p r = some m) :
    SubSpec p r m := by
  unfold headSep at h
  cases hps : patSplit p r with
  | none => rw [hps] at h; exact Option.noConfusion h
  | some pr =>
    rw [hps] at h
    obtain ⟨m1, rest1⟩ := pr
    cases rest1 with
    | nil => exact Option.noConfusion h
    | cons x rest =>
      have hred : hsAux (some (m1, x :: rest))
          = (if x = '/' ∨ x = '?' then some m1 else none) := rfl
      by_cases hx : x = '/' ∨ x = '?'
      · rw [hred, if_pos hx] at h
        injection h with hm
        obtain ⟨hr, hpm⟩ := patSplit_sound p r m1 (x :: rest) hps
        refine ⟨[], m1, x, rest, ?_, ?_, ?_, hpm, hx⟩
        · rw [hr]; simp
        · rw [← hm]; rfl
        · intro ch hch; exact absurd hch (List.not_mem_nil ch)
      · rw [hred, if_neg hx] at h
        exact Option.noConfusion h

theorem headSep_complete (p : List Tok) (b : List Char) (c : Char) (rest : List Char)
    (hb : patMatch p b = true) (hc : c = '/' ∨ c = '?') :
    headSep p (b ++ c :: rest) = some b := by
  unfold headSep
  rw [patSplit_complete p b (c :: rest) hb]
  have hred : hsAux (some (b, c :: rest))
      = (if c = '/' ∨ c = '?' then some b else none) := rfl
  rw [hred, if_pos hc]

theorem subMatch_sound (p : List Tok) :
    ∀ (r m : List Char), subMatch p r = some m → SubSpec p r m := by
  intro r
  induction r with
  | nil => intro m h; exact Option.noConfusion h
  | cons c cs ih =>
    intro m h
    by_cases hnl : c = '\n'
    · rw [subMatch, if_pos hnl] at h
      exact headSep_sound p (c :: cs) m h
    · rw [subMatch, if_neg hnl] at h
      cases hsm : subMatch p cs with
      | some v =>
        rw [hsm] at h
        have h2 : some (c :: v) = some m := h
        injection h2 with h3
        obtain ⟨a, b, c2, rest, hr, hm, hnf, hpm, hsep⟩ := ih v hsm
        refine ⟨c :: a, b, c2, rest, ?_, ?_, ?_, hpm, hsep⟩
        · rw [List.cons_append, List.cons_append, ← hr]
        · rw [← h3, hm, List.cons_append]
        · intro ch hch
          rcases List.mem_cons.mp hch with h4 | h4
          · rw [h4]; exact hnl
          · exact hnf ch h4
      | none =>
        rw [hsm] at h
        exact headSep_sound p (c :: cs) m h

theorem subMatch_complete (p : List Tok) :
    ∀ (a r b : List Char) (c : Char) (rest : List Char),
      r = a ++ b ++ c :: rest → NLFree a → patMatch p b = true → (c = '/' ∨ c = '?') →
      (subMatch p r).isSome = true := by
  intro a
  induction a with
  | nil =>
    intro r b c rest hr hnf hb hc
    subst hr
    rw [List.nil_append]
    cases hbr : b ++ c :: rest with
    | nil => exact absurd hbr (by simp)
    | cons c0 cs0 =>
      rw [subMatch]
      by_cases hnl : c0 = '\n'
      · rw [if_pos hnl, ← hbr, headSep_complete p b c rest hb hc]
        rfl
      · rw [if_neg hnl]
        cases hsm : subMatch p cs0 with
        | some v => rfl
        | none =>
          show (headSep p (c0 :: cs0)).isSome = true
          rw [← hbr, headSep_complete p b c rest hb hc]
          rfl
  | cons ch a2 ih =>
    intro r b c rest hr hnf hb hc
    subst hr
    rw [List.cons_append, List.cons_append, subMatch]
    have hch : ¬ ch = '\n' := hnf ch (List.mem_cons_self ch a2)
    rw [if_neg hch]
    have hih := ih (a2 ++ b ++ c :: rest) b c rest rfl
      (fun x hx => hnf x (List.mem_cons_of_mem ch hx)) hb hc
    cases hsm : subMatch p (a2 ++ b ++ c :: rest) with
    | some v => rfl
    | none =>
      rw [hsm] at hih
      exact Bool.noConfusion hih

theorem schemeRemainders_sound :
    ∀ (s r : List Char), r ∈ schemeRemainders s →
      ∃ h, s = h ++ ':' :: '/' :: '/' :: r ∧ ¬ h = [] ∧ NLFree h := by
  intro s
  induction s with
  | nil => intro r hr; exact absurd hr (List.not_mem_nil r)
  | cons c cs ih =>
    intro r hr
    by_cases hnl : c = '\n'
    · rw [schemeRemainders, if_pos hnl] at hr
      exact absurd hr (List.not_mem_nil r)
    · rw [schemeRemainders, if_neg hnl] at hr
      rcases List.mem_append.mp hr with h1 | h1
      · obtain ⟨h, hs, hne, hnf⟩ := ih r h1
        refine ⟨c :: h, ?_, by simp, ?_⟩
        · rw [List.cons_append, hs]
        · intro x hx
          rcases List.mem_cons.mp hx with h2 | h2
          · rw [h2]; exact hnl
          · exact hnf x h2
      · by_cases h3 : cs.take 3 = [':', '/', '/']
        · rw [if_pos h3] at h1
          have h4 : r = cs.drop 3 := List.mem_singleton.mp h1
          subst h4
          refine ⟨[c], ?_, by simp, ?_⟩
          · have h5 : cs.take 3 ++ cs.drop 3 = cs := List.take_append_drop 3 cs
            rw [h3] at h5
            exact congrArg (List.cons c) h5.symm
          · intro x hx
            rw [List.mem_singleton.mp hx]
            exact hnl
        · rw [if_neg h3] at h1
          exact absurd h1 (List.not_mem_nil _)

theorem schemeRemainders_complete :
    ∀ (h s r : List Char), s = h ++ ':' :: '/' :: '/' :: r → ¬ h = [] → NLFree h →
      r ∈ schemeRemainders s := by
  intro h
  induction h with
  | nil => intro s r _ hne _; exact absurd rfl hne
  | cons c h2 ih =>
    intro s r hs hne hnf
    subst hs
    have hnl : ¬ c = '\n' := hnf c (List.mem_cons_self c h2)
    cases h2 with
    | nil =>
      rw [List.cons_append, List.nil_append, schemeRemainders, if_neg hnl]
      refine List.mem_append.mpr (Or.inr ?_)
      have htake : (':' :: '/' :: '/' :: r).take 3 = [':', '/', '/'] := rfl
      rw [if_pos htake]
      exact List.mem_singleton.mpr rfl
    | cons c2 h3 =>
      rw [List.cons_append, schemeRemainders, if_neg hnl]
      refine List.mem_append.mpr (Or.inl ?_)
      exact ih _ r rfl (by simp) (fun x hx => hnf x (List.mem_cons_of_mem c hx))

theorem firstSome_sound (f : List Char → Option (List Char)) :
    ∀ (l : List (List Char)) (v : List Char), firstSome f l = some v →
      ∃ x, x ∈ l ∧ f x = some v := by
  intro l
  induction l with
  | nil => intro v h; exact Option.noConfusion h
  | cons x xs ih =>
    intro v h
    rw [firstSome] at h
    cases hfx : f x with
    | some w =>
      rw [hfx] at h
      have h2 : some w = some v := h
      injection h2 with h3
      exact ⟨x, List.mem_cons_self x xs, by rw [hfx, h3]⟩
    | none =>
      rw [hfx] at h
      have h2 : firstSome f xs = some v := h
      obtain ⟨y, hy, hfy⟩ := ih v h2
      exact ⟨y, List.mem_cons_of_mem x hy, hfy⟩

theorem firstSome_isSome (f : List Char → Option (List Char)) :
    ∀ (l : List (List Char)) (x : List Char), x ∈ l → (f x).isSome = true →
      (firstSome f l).isSome = true := by
  intro l
  induction l with
  | nil => intro x hx _; exact absurd hx (List.not_mem_nil x)
  | cons y ys ih =>
    intro x hx hfx
    rw [firstSome]
    cases hfy : f y with
    | some w => rfl
    | none =>
      rcases List.mem_cons.mp hx with h1 | h1
      · rw [h1] at hfx
        rw [hfy] at hfx
        exact Bool.noConfusion hfx
      · exact ih x h1 hfx

theorem urlMatch_sound (p : List Tok) (s m : List Char) (h : urlMatch p s = some m) :
    UrlValue p s m := by
  unfold urlMatch at h
  obtain ⟨x, hx, hfx⟩ := firstSome_sound (subMatch p) (schemeRemainders s ++ [s]) m h
  rcases List.mem_append.mp hx with h1 | h1
  · obtain ⟨hh, hs, hne, hnf⟩ := schemeRemainders_sound s x h1
    exact ⟨x, Or.inr ⟨hh, hs, hne, hnf⟩, subMatch_sound p x m hfx⟩
  · have h2 : x = s := List.mem_singleton.mp h1
    subst h2
    exact ⟨x, Or.inl rfl, subMatch_sound p x m hfx⟩

theorem urlMatch_isSome (p : List Tok) (s : List Char) (h : UrlAccept p s) :
    (urlMatch p s).isSome = true := by
  obtain ⟨r, m, hss, hsub⟩ := h
  obtain ⟨a, b, c, rest, hr, hm, hnf, hpm, hsep⟩ := hsub
  have hsm : (subMatch p r).isSome = true :=
    subMatch_complete p a r b c rest hr hnf hpm hsep
  rcases hss with h1 | ⟨hh, hs, hne, hnfh⟩
  · subst h1
    exact firstSome_isSome (subMatch p) (schemeRemainders r ++ [r]) r
      (List.mem_append_right _ (List.mem_singleton.mpr rfl)) hsm
  · have hmem : r ∈ schemeRemainders s := schemeRemainders_complete hh s r hs hne hnfh
    exact firstSome_isSome (subMatch p) (schemeRemainders s ++ [s]) r
      (List.mem_append_left _ hmem) hsm

theorem domainPattern_ne_nil (d : String) (hd : ¬ d = "") : ¬ domainPattern d = [] := by
  intro h
  apply hd
  unfold domainPattern at h
  have h2 : d.data = [] := List.map_eq_nil_iff.mp h
  obtain ⟨l⟩ := d
  simp only at h2
  rw [h2]

/-- C1 amended: for a non-empty target domain of alphanumerics, dots and
hyphens (the domains the regex embedding is faithful for), `clean` accepts a
raw text if and only if, after stripping an optional leading scheme
(`scheme://`, the engine may pick any such split), SOME prefix of the
remaining text of the form gap-then-domain-match — where `.` in the domain
matches any character, and the gap may itself contain `/` or `?` — is
immediately followed by `/` or `?`; the returned value is such a
scheme-stripped prefix (the greedy engine's choice), not necessarily the
prefix ending at the first `/` or `?`, and it need not literally end with
the domain. -/
theorem clean_match_characterization (d t : String) (hd : domainTame d) :
    (¬ clean d [t] = [] ↔ UrlAccept (domainPattern d) t.data)
      ∧ ∀ v, v ∈ clean d [t] → UrlValue (domainPattern d) t.data v.data := by
  obtain ⟨hne, _⟩ := hd
  have hp : ¬ domainPattern d = [] := domainPattern_ne_nil d hne
  cases hum : urlMatch (domainPattern d) t.data with
  | none =>
    have hco : cleanOne d t = none := by
      unfold cleanOne
      rw [hum]
      rfl
    have hclean : clean d [t] = [] := by
      simp [clean, hco]
    constructor
    · constructor
      · intro hcl
        exact absurd hclean hcl
      · intro hacc
        have hsome := urlMatch_isSome (domainPattern d) t.data hacc
        rw [hum] at hsome
        exact Bool.noConfusion hsome
    · intro v hv
      rw [hclean] at hv
      exact absurd hv (List.not_mem_nil v)
  | some m =>
    have hval : UrlValue (domainPattern d) t.data m := urlMatch_sound _ _ _ hum
    obtain ⟨r, hss, hsub⟩ := hval
    have hmne : ¬ m = [] := by
      obtain ⟨a, b, c, rest, hr, hm, hnf, hpm, hsep⟩ := hsub
      intro h0
      have hab : a ++ b = [] := by rw [← hm]; exact h0
      have hb : b = [] := (List.append_eq_nil.mp hab).2
      have hlen := patMatch_length (domainPattern d) b hpm
      rw [hb] at hlen
      cases hp2 : domainPattern d with
      | nil => exact hp hp2
      | cons q qs =>
        rw [hp2] at hlen
        simp at hlen
    have hco : cleanOne d t = some (String.mk m) := by
      unfold cleanOne
      rw [hum]
      show (if m.isEmpty then none else some (String.mk m)) = some (String.mk m)
      rw [if_neg (fun hc => hmne (List.isEmpty_iff.mp hc))]
    have hclean : clean d [t] = [String.mk m] := by
      simp [clean, hco]
    constructor
    · constructor
      · intro _
        exact ⟨r, m, hss, hsub⟩
      · intro _
        rw [hclean]
        simp
    · intro v hv
      rw [hclean] at hv
      have hv2 : v = String.mk m := List.mem_singleton.mp hv
      subst hv2
      exact ⟨r, hss, hsub⟩

/-- Witness for the amended C1 theorem: the domain `example.com` is tame and
the text `http://sub.example.com/page?x=1` is accepted, so the declarative
acceptance condition holds for it. -/
theorem clean_match_characterization_witness :
    UrlAccept (domainPattern "example.com") (String.data "http://sub.example.com/page?x=1") :=
  (clean_match_characterization "example.com" "http://sub.example.com/page?x=1"
    (by decide)).1.mp (by decide)

/-- C1 counterexample: for domain `example.com` and raw text
`foo/a.example.com/x`, the claim accepts nothing — the prefix up to the
first `/` is `foo`, which does not end with the domain — yet `clean`
accepts the text and returns `foo/a.example.com`, a value that contains `/`
and extends past the first separator. -/
theorem clean_first_sep_claim_cex :
    claimAccepts "example.com" "foo/a.example.com/x" = false
      ∧ clean "example.com" ["foo/a.example.com/x"] = ["foo/a.example.com"] := by
  exact ⟨by decide, by decide⟩

/-- C7: for domain `example.com`, `clean` on
`http://sub.example.com/page?x=1` returns exactly `sub.example.com`, and on
`no-match-here` (which has no `/` or `?`) returns the empty list. -/
theorem clean_round_trip :
    clean "example.com" ["http://sub.example.com/page?x=1"] = ["sub.example.com"]
      ∧ clean "example.com" ["no-match-here"] = [] := by
  exact ⟨by decide, by decide⟩

/-- C10: the domain is interpolated into the regular expression unescaped,
so its `.` acts as a wildcard: for domain `a.com` the raw text `xaXcom/` is
accepted and returned as `xaXcom`, whose characters do not literally end
with `a.com`. -/
theorem clean_regex_metachar_domain :
    clean "a.com" ["xaXcom/"] = ["xaXcom"]
      ∧ List.isSuffixOf "a.com".data "xaXcom".data = false := by
  exact ⟨by decide, by decide⟩

/-- C9 counterexample: in the chain root (non-abstract, declares
`search_url`) to abstract intermediate to concrete leaf, the leaf's resolved
config does NOT take `search_url` from its nearest non-abstract ancestor:
the abstract intermediate inherited it from the root, but the leaf's nearest
ancestor `_meta` is abstract, so the leaf inherits nothing and its
`search_url` is absent. -/
theorem meta_inheritance_claim_cex :
    (resolveChain [dRoot]).map (fun r => (r.search_url, r.abstract))
        = some (some "https://a", false)
      ∧ (resolveChain [dRoot, dAbstract]).map (fun r => (r.search_url, r.abstract))
        = some (some "https://a", true)
      ∧ (resolveChain [dRoot, dAbstract, dLeaf]).map (fun r => r.search_url)
        = some none := by
  exact ⟨rfl, rfl, rfl⟩

/-- C9 amended: resolution happens once per class definition, against the
immediate base `_meta` (appending a class to a chain resolves its declared
meta against the chain's resolved config); declared fields are always used
as declared; when the base `_meta` is non-abstract, each omitted field is
copied from it, but when the base `_meta` is abstract — even if a further
ancestor is non-abstract — nothing is inherited and the resolved config is
exactly the declared one; the resolved abstract flag is the declared one,
defaulting to false. -/
theorem meta_inheritance_resolution (d : DeclaredMeta) (b : ResolvedMeta)
    (ds : List DeclaredMeta) :
    resolveChain (ds ++ [d]) = some (resolve_meta d (resolveChain ds))
      ∧ resolve_meta d none = optionsOf d
      ∧ resolve_meta d (some b)
          = (if b.abstract then optionsOf d
             else ⟨pick d.search_url b.search_url, pick d.query_param b.query_param,
               pick d.include_param b.include_param, pick d.exclude_param b.exclude_param,
               pick d.subdomains_selector b.subdomains_selector,
               pick d.request_delay b.request_delay, d.abstract.getD b.abstract⟩)
      ∧ (resolve_meta d (some b)).abstract = d.abstract.getD false := by
  refine ⟨?_, rfl, ?_, ?_⟩
  · unfold resolveChain
    rw [List.foldl_append]
    rfl
  · by_cases hb : b.abstract = true
    · simp [resolve_meta, hb]
    · rw [Bool.not_eq_true] at hb
      simp [resolve_meta, hb]
  · by_cases hb : b.abstract = true
    · simp [resolve_meta, optionsOf, hb]
    · rw [Bool.not_eq_true] at hb
      simp [resolve_meta, hb]
